import Mathlib

/-!
Shallow embedding of the Bible Character Quiz application (`app.py`):
the scoring/reconciliation engine `fetch_user_history`, the Mode-1 answer
submission step inside `mode1_play`, and the Mode-2 guess submission step
inside `mode2_play`.

Python strings are modelled over ASCII: `str.lower`, `str.upper`,
`str.title`, `str.strip` act on ASCII letters and ASCII whitespace and
leave every other character unchanged.  Worksheet cells are modelled by
`CellVal` (an integer or a string), and Python's `int(...)` coercion with
its `try/except` fallback is modelled by `pyInt`, which returns `none`
exactly when `int(...)` would raise.  The two worksheet queries that the
`try`/`except Exception: pass` blocks of `fetch_user_history` guard are
modelled as `Option` arguments: `none` means the query raised.
-/

namespace BibleQuiz

/-- ASCII model of Python `str.lower` on one character. -/
def charToLower (c : Char) : Char :=
  if 65 ≤ c.toNat ∧ c.toNat ≤ 90 then Char.ofNat (c.toNat + 32) else c

/-- ASCII model of Python `str.upper` on one character. -/
def charToUpper (c : Char) : Char :=
  if 97 ≤ c.toNat ∧ c.toNat ≤ 122 then Char.ofNat (c.toNat - 32) else c

/-- ASCII whitespace, as stripped by Python `str.strip()`. -/
def isPySpace (c : Char) : Bool :=
  c = ' ' || c = '\t' || c = '\n' || c = '\r'

/-- Model of Python `str.lower()`. -/
def pyLower (s : String) : String := ⟨s.data.map charToLower⟩

/-- Model of Python `str.upper()`. -/
def pyUpper (s : String) : String := ⟨s.data.map charToUpper⟩

/-- Model of Python `str.strip()`. -/
def pyStrip (s : String) : String :=
  ⟨((s.data.dropWhile isPySpace).reverse.dropWhile isPySpace).reverse⟩

/-- Is `c` an ASCII letter? -/
def isAsciiAlpha (c : Char) : Bool :=
  (65 ≤ c.toNat && c.toNat ≤ 90) || (97 ≤ c.toNat && c.toNat ≤ 122)

/-- Model of Python `str.title` over a character list: a letter is
uppercased when the previous character was not a letter, lowercased
otherwise.  The boolean argument records whether the previous character
was a letter. -/
def titleAux : Bool → List Char → List Char
  | _, [] => []
  | prevAlpha, c :: cs =>
      (if isAsciiAlpha c then (if prevAlpha then charToLower c else charToUpper c) else c)
        :: titleAux (isAsciiAlpha c) cs

/-- Model of Python `str.title()`. -/
def pyTitle (s : String) : String := ⟨titleAux false s.data⟩

/-- A worksheet cell as returned by `get_all_records`: an integer or a
string. -/
inductive CellVal where
  | int (n : Int)
  | str (s : String)
deriving DecidableEq, Repr

/-- Digit-string evaluation: `some` of the value when every character is
an ASCII digit, `none` otherwise. -/
def digitsAux : List Char → Nat → Option Nat
  | [], acc => some acc
  | c :: cs, acc =>
      if 48 ≤ c.toNat ∧ c.toNat ≤ 57 then digitsAux cs (acc * 10 + (c.toNat - 48))
      else none

/-- Model of Python `int(x)` on a cell: `none` exactly when it raises
(`ValueError` on a non-numeric string). -/
def pyInt : CellVal → Option Int
  | .int n => some n
  | .str s =>
      match (pyStrip s).data with
      | [] => none
      | '-' :: rest =>
          if rest.isEmpty then none
          else (digitsAux rest 0).map (fun n => -(n : Int))
      | '+' :: rest =>
          if rest.isEmpty then none
          else (digitsAux rest 0).map (fun n => (n : Int))
      | l => (digitsAux l 0).map (fun n => (n : Int))

/-- A row of the `Mode1_Sessions` worksheet, with the fields
`fetch_user_history` reads (`str()` coercions of `UserEmail` and
`CategoryID` already applied). -/
structure M1Row where
  UserEmail : String
  CategoryID : String
  Score : CellVal
deriving DecidableEq, Repr

/-- A row of the `Mode2_Sessions` worksheet, with the fields
`fetch_user_history` reads. -/
structure M2Row where
  UserEmail : String
  CharacterID : String
  IsSolved : String
  CurrentAttempts : CellVal
deriving DecidableEq, Repr

/-- `int(row['Score'])` with the `except: score = 0` fallback
(app.py lines 71-74). -/
def scoreOf (r : M1Row) : Int := (pyInt r.Score).getD 0

/-- `int(row['CurrentAttempts'])` with the `except: attempts = 2`
fallback (app.py lines 103-106). -/
def attemptsOf (r : M2Row) : Int := (pyInt r.CurrentAttempts).getD 2

/-- The scoring conditional of `fetch_user_history` (app.py lines
108-114): 0 attempts = 3 pts, 1 attempt = 2 pts, anything else 1 pt. -/
def reconcile_points (attempts : Int) : Int :=
  if attempts = 0 then 3 else if attempts = 1 then 2 else 1

/-- Python-dict-as-association-list lookup (first entry with the key). -/
def alookup {α : Type} (m : List (String × α)) (k : String) : Option α :=
  (m.find? (fun p => p.1 == k)).map (·.2)

/-- Python-dict update of an existing key: replace the value of the first
entry carrying the key, keeping its position. -/
def asetFirst {α : Type} : List (String × α) → String → α → List (String × α)
  | [], _, _ => []
  | (k', v') :: rest, k, v =>
      if k' == k then (k', v) :: rest else (k', v') :: asetFirst rest k v

/-- The Mode-1 loop of `fetch_user_history` (app.py lines 69-78): build
`history_map`, keeping only the highest score per category.  A fresh key
is appended (Python dict insertion order); a present key is overwritten
in place when the new score is strictly greater. -/
def m1_history_map : List M1Row → List (String × Int) → List (String × Int)
  | [], m => m
  | r :: rs, m =>
      let c_id := r.CategoryID
      let score := scoreOf r
      match alookup m c_id with
      | none => m1_history_map rs (m ++ [(c_id, score)])
      | some old =>
          if score > old then m1_history_map rs (asetFirst m c_id score)
          else m1_history_map rs m

/-- `sum(history_map.values())` (app.py line 82). -/
def sumValues (m : List (String × Int)) : Int := (m.map (·.2)).sum

/-- The Mode-2 loop of `fetch_user_history` (app.py lines 95-114): walk
the solved rows, count each `CharacterID` once (membership in
`solved_chars`), and accumulate the tiered points of the first solved row
per character. -/
def m2_loop : List M2Row → List String → Int → List String × Int
  | [], solved_chars, m2_points => (solved_chars, m2_points)
  | r :: rs, solved_chars, m2_points =>
      let c_id := r.CharacterID
      if c_id ∈ solved_chars then m2_loop rs solved_chars m2_points
      else m2_loop rs (solved_chars ++ [c_id]) (m2_points + reconcile_points (attemptsOf r))

/-- The per-character live progress entry of `st.session_state.m2_progress`. -/
structure MProg where
  attempts : Int
  solved : Bool
deriving DecidableEq, Repr

/-- One step of the pre-fill loop of `fetch_user_history` (app.py lines
119-123): insert `{'attempts': 0, 'solved': True}` for an unseen
character, otherwise set `solved` on the existing entry. -/
def prefillStep (m : List (String × MProg)) (c_id : String) : List (String × MProg) :=
  match alookup m c_id with
  | none => m ++ [(c_id, ⟨0, true⟩)]
  | some pr => asetFirst m c_id { pr with solved := true }

/-- The pre-fill loop over `solved_chars`. -/
def prefill : List (String × MProg) → List String → List (String × MProg)
  | m, [] => m
  | m, c :: cs => prefill (prefillStep m c) cs

/-- The slice of `st.session_state` that `fetch_user_history` touches. -/
structure SessionState where
  score : Int
  history_mode1 : List (String × Int)
  m2_progress : List (String × MProg)
deriving DecidableEq, Repr

/-- `fetch_user_history(sheet, user_id)` (app.py lines 54-129).  The two
worksheet queries are passed as `Option` lists: `none` models the query
raising, landing in the corresponding `except Exception: pass`.  When the
Mode-1 query raises, `history_map` is never assigned, so
`st.session_state.history_mode1` keeps its previous value and Mode 1
contributes 0; symmetrically for Mode 2.  The global score is set at the
end in every case. -/
def fetch_user_history (m1Log : Option (List M1Row)) (m2Log : Option (List M2Row))
    (user_id : String) (st : SessionState) : SessionState :=
  let t1 : Int × List (String × Int) :=
    match m1Log with
    | none => (0, st.history_mode1)
    | some m1_data =>
        let user_m1 := m1_data.filter (fun r => r.UserEmail == user_id)
        let history_map := m1_history_map user_m1 []
        (sumValues history_map, history_map)
  let t2 : Int × List (String × MProg) :=
    match m2Log with
    | none => (0, st.m2_progress)
    | some m2_data =>
        let user_m2 := m2_data.filter
          (fun r => r.UserEmail == user_id && pyUpper r.IsSolved == "TRUE")
        let res := m2_loop user_m2 [] 0
        (res.2, prefill st.m2_progress res.1)
  { score := t1.1 + t2.1, history_mode1 := t1.2, m2_progress := t2.2 }

/-- Outcome of one Mode-1 answer submission (`st.warning` duplicate,
`st.error` incorrect, append accepted). -/
inductive M1Outcome where
  | accepted
  | duplicate
  | incorrect
deriving DecidableEq, Repr

/-- A row of the `1-CategoryAnswer` worksheet. -/
structure AnswerRow where
  CategoryID : String
  CorrectAnswer : String
deriving DecidableEq, Repr

/-- `valid_answers` as computed on every submission (app.py lines
302-306). -/
def valid_answers_for (all_answers : List AnswerRow) (target_cat_id : String) : List String :=
  (all_answers.filter (fun r => pyStrip r.CategoryID == pyStrip target_cat_id)).map
    (fun r => pyLower (pyStrip r.CorrectAnswer))

/-- One Mode-1 answer submission (app.py lines 308-318): normalize the
input, check membership in the valid answers, then check against the
lowercased accepted list; on acceptance append the stripped, title-cased
input. -/
def mode1_submit (valid_answers : List String) (m1_answers : List String)
    (user_input : String) : M1Outcome × List String :=
  let clean_input := pyLower (pyStrip user_input)
  if clean_input ∈ valid_answers then
    let current_found := m1_answers.map pyLower
    if clean_input ∈ current_found then (.duplicate, m1_answers)
    else (.accepted, m1_answers ++ [pyTitle (pyStrip user_input)])
  else (.incorrect, m1_answers)

/-- Folding a whole sequence of submissions through `mode1_submit`,
starting from a given accepted list. -/
def mode1_fold (valid_answers : List String) : List String → List String → List String
  | m1_answers, [] => m1_answers
  | m1_answers, i :: is => mode1_fold valid_answers (mode1_submit valid_answers m1_answers i).2 is

/-- The row appended by `save_mode2_guess` (app.py lines 142-146),
restricted to the fields with content. -/
structure M2Saved where
  charId : String
  attempts : Int
  solved : Bool
  guess : String
deriving DecidableEq, Repr

/-- Result of one Mode-2 guess submission: the new progress entry, the
score delta, the persisted guess record, and whether the guess matched. -/
structure GuessStep where
  progress : MProg
  scoreDelta : Int
  saved : M2Saved
  correct : Bool
deriving DecidableEq, Repr

/-- `points_map = {0: 3, 1: 2}` (app.py line 415). -/
def points_map : List (Int × Int) := [(0, 3), (1, 2)]

/-- Python `dict.get(k, default)` over an integer-keyed dict. -/
def dictGet (m : List (Int × Int)) (k : Int) (default : Int) : Int :=
  ((m.find? (fun p => p.1 == k)).map (·.2)).getD default

/-- `points_map.get(state['attempts'], 1)` — the live tier pricing of
`mode2_play` (app.py lines 415-416). -/
def live_points (attempts : Int) : Int := dictGet points_map attempts 1

/-- One Mode-2 guess submission (app.py lines 409-428).  `character_name`
is the raw `CharacterName` cell (stripped at its binding site, line 376);
`state` is the character's current progress entry.  On a match: mark
solved, add `live_points`, save a record carrying the pre-guess attempts
value.  On a mismatch: the code increments
`st.session_state.m2_progress[c_id]['attempts']` and only then saves
`state['attempts']`; since `state` aliases that same dict, the saved
record carries the incremented value `attempts + 1`. -/
def mode2_guess_step (c_id : String) (character_name : String) (state : MProg)
    (guess : String) : GuessStep :=
  let clean_guess := pyLower (pyStrip guess)
  let clean_answer := pyLower (pyStrip character_name)
  if clean_guess = clean_answer then
    let points_earned := live_points state.attempts
    { progress := { state with solved := true }
      scoreDelta := points_earned
      saved := ⟨c_id, state.attempts, true, guess⟩
      correct := true }
  else
    { progress := { state with attempts := state.attempts + 1 }
      scoreDelta := 0
      saved := ⟨c_id, state.attempts + 1, false, guess⟩
      correct := false }

/-!
Spec-side definitions, written from the specification's words, to be
compared with the code-side definitions above.
-/

/-- The tier mapping of spec section 4.2: `{0 → 3, 1 → 2, n ≥ 2 → 1}`. -/
def tier (n : Int) : Int := if n = 0 then 3 else if n = 1 then 2 else 1

/-- First-occurrence deduplication of a list of identifiers. -/
def dedupFirst : List String → List String
  | [] => []
  | x :: xs => x :: (dedupFirst xs).filter (fun y => y != x)

/-- Maximum of a list of integers (0 on the empty list; only applied to
nonempty group lists below). -/
def listMax : List Int → Int
  | [] => 0
  | x :: xs => xs.foldl max x

/-- The user's Mode-1 rows. -/
def userM1 (user_id : String) (rows : List M1Row) : List M1Row :=
  rows.filter (fun r => r.UserEmail == user_id)

/-- The user's solved Mode-2 rows, in log order. -/
def userSolvedM2 (user_id : String) (rows : List M2Row) : List M2Row :=
  rows.filter (fun r => r.UserEmail == user_id && pyUpper r.IsSolved == "TRUE")

/-- Spec formula: the maximum persisted score for one category of one
user. -/
def spec_best (user_id : String) (rows : List M1Row) (c : String) : Int :=
  listMax (((userM1 user_id rows).filter (fun r => r.CategoryID == c)).map scoreOf)

/-- Spec formula: sum over categories of the maximum persisted score. -/
def spec_m1_total (user_id : String) (rows : List M1Row) : Int :=
  ((dedupFirst ((userM1 user_id rows).map (·.CategoryID))).map (spec_best user_id rows)).sum

/-- `pointsFor(firstSolvedAttemptCount)` of the spec: the tier points of a
character's first record in the given (solved-filtered) log, 0 when it has
none. -/
def pointsFor (solved : List M2Row) (c : String) : Int :=
  match solved.find? (fun r => r.CharacterID == c) with
  | some r => tier (attemptsOf r)
  | none => 0

/-- Spec formula: tier points of a character's first solved record,
counted once per character with at least one solved record. -/
def spec_m2_total (user_id : String) (rows : List M2Row) : Int :=
  ((dedupFirst ((userSolvedM2 user_id rows).map (·.CharacterID))).map
    (pointsFor (userSolvedM2 user_id rows))).sum

/-- Spec formula for the reconciled total:
`Σ bestScorePerCategory + Σ pointsFor(firstSolvedAttemptCount)`. -/
def spec_total_score (user_id : String) (m1 : List M1Row) (m2 : List M2Row) : Int :=
  spec_m1_total user_id m1 + spec_m2_total user_id m2

/-- The maximum coerced score of the rows of one category. -/
def groupMax (rows : List M1Row) (c : String) : Int :=
  listMax ((rows.filter (fun r => r.CategoryID == c)).map scoreOf)

/-- The map the specification prescribes: first-occurrence category order,
each category paired with its maximum persisted score. -/
def specMap (rows : List M1Row) : List (String × Int) :=
  (dedupFirst (rows.map (·.CategoryID))).map (fun c => (c, groupMax rows c))

/-- The points the Mode-2 loop still has to collect, given the characters
already seen: one tier contribution per not-yet-seen character, priced by
its first record in `rows`. -/
def m2_spec_aux (rows : List M2Row) (seen : List String) : Int :=
  (((dedupFirst (rows.map (·.CharacterID))).filter (fun c => decide (c ∉ seen))).map
    (pointsFor rows)).sum

/-- The first entry for key `c` exists and is marked solved. -/
def solvedAt (m : List (String × MProg)) (c : String) : Prop :=
  ∃ pr, alookup m c = some pr ∧ pr.solved = true

/-!  Character and string lemmas.  -/

theorem toNat_ofNat_valid (n : Nat) (h : n.isValidChar) : (Char.ofNat n).toNat = n := by
  simp only [Char.ofNat, dif_pos h, Char.ofNatAux, Char.toNat]
  rfl

theorem charToLower_charToUpper (c : Char) :
    charToLower (charToUpper c) = charToLower c := by
  unfold charToUpper charToLower
  by_cases h : 97 ≤ c.toNat ∧ c.toNat ≤ 122
  · rw [if_pos h]
    have hv : (c.toNat - 32).isValidChar := by left; omega
    have ht : (Char.ofNat (c.toNat - 32)).toNat = c.toNat - 32 := toNat_ofNat_valid _ hv
    rw [if_pos (by omega), if_neg (by omega), ht]
    have he : c.toNat - 32 + 32 = c.toNat := by omega
    rw [he, Char.ofNat_toNat]
  · rw [if_neg h]

theorem charToLower_charToLower (c : Char) :
    charToLower (charToLower c) = charToLower c := by
  unfold charToLower
  by_cases h : 65 ≤ c.toNat ∧ c.toNat ≤ 90
  · rw [if_pos h]
    have hv : (c.toNat + 32).isValidChar := by left; omega
    have ht : (Char.ofNat (c.toNat + 32)).toNat = c.toNat + 32 := toNat_ofNat_valid _ hv
    rw [if_neg (by omega)]
  · rw [if_neg h, if_neg h]

theorem charToLower_titleAux (l : List Char) :
    ∀ b, (titleAux b l).map charToLower = l.map charToLower := by
  induction l with
  | nil => intro b; rfl
  | cons c cs ih =>
      intro b
      simp only [titleAux, List.map_cons, ih]
      by_cases ha : isAsciiAlpha c = true
      · cases b <;>
          simp [ha, charToLower_charToUpper, charToLower_charToLower]
      · simp [ha]

/-- Lowercasing is invariant under title-casing: the key fact behind the
Mode-1 duplicate check. -/
theorem pyLower_pyTitle (s : String) : pyLower (pyTitle s) = pyLower s :=
  congrArg String.mk (charToLower_titleAux s.data false)

/-!  Association-list lemmas.  -/

theorem alookup_nil {α : Type} (k : String) : alookup ([] : List (String × α)) k = none := rfl

theorem alookup_cons {α : Type} (k' : String) (v' : α) (m : List (String × α)) (k : String) :
    alookup ((k', v') :: m) k = if k' = k then some v' else alookup m k := by
  simp only [alookup, List.find?]
  by_cases h : k' = k
  · simp [h]
  · simp [h, beq_eq_false_iff_ne.mpr h]

theorem alookup_append_of_some {α : Type} (m l : List (String × α)) (k : String) (v : α)
    (h : alookup m k = some v) : alookup (m ++ l) k = some v := by
  induction m with
  | nil => simp [alookup_nil] at h
  | cons p m ih =>
      rw [List.cons_append, alookup_cons] at *
      by_cases hk : p.1 = k
      · simpa [hk] using h
      · rw [if_neg hk] at h ⊢
        exact ih h

theorem alookup_append_of_none {α : Type} (m l : List (String × α)) (k : String)
    (h : alookup m k = none) : alookup (m ++ l) k = alookup l k := by
  induction m with
  | nil => rfl
  | cons p m ih =>
      rw [List.cons_append, alookup_cons] at *
      by_cases hk : p.1 = k
      · simp [hk] at h
      · rw [if_neg hk] at h ⊢
        exact ih h

theorem asetFirst_of_lookup_self {α : Type} (m : List (String × α)) (k : String) (v : α)
    (h : alookup m k = some v) : asetFirst m k v = m := by
  induction m with
  | nil => rfl
  | cons p m ih =>
      obtain ⟨k', v'⟩ := p
      rw [alookup_cons] at h
      by_cases hk : k' = k
      · rw [if_pos hk] at h
        simp only [asetFirst, beq_iff_eq, if_pos hk]
        injection h with h
        rw [h]
      · rw [if_neg hk] at h
        simp only [asetFirst, beq_iff_eq, if_neg hk]
        rw [ih h]

theorem alookup_asetFirst {α : Type} (m : List (String × α)) (k c : String) (v : α)
    (hm : (alookup m k).isSome) :
    alookup (asetFirst m k v) c =
      if k = c then some v else alookup m c := by
  induction m with
  | nil => simp [alookup_nil] at hm
  | cons p m ih =>
      obtain ⟨k', v'⟩ := p
      rw [alookup_cons] at hm
      by_cases hk : k' = k
      · subst hk
        simp only [asetFirst, beq_iff_eq, if_pos rfl]
        rw [alookup_cons]
        by_cases hc : k' = c <;> simp [alookup_cons, hc]
      · rw [if_neg hk] at hm
        simp only [asetFirst, beq_iff_eq, if_neg hk, alookup_cons]
        by_cases hc : k' = c
        · subst hc
          rw [if_pos rfl, if_pos rfl, if_neg (by intro h; exact hk h.symm)]
        · rw [if_neg hc, if_neg hc, ih hm]

theorem keys_asetFirst {α : Type} (m : List (String × α)) (k : String) (v : α) :
    (asetFirst m k v).map Prod.fst = m.map Prod.fst := by
  induction m with
  | nil => rfl
  | cons p m ih =>
      obtain ⟨k', v'⟩ := p
      simp only [asetFirst, beq_iff_eq]
      by_cases hk : k' = k
      · simp [hk]
      · simp [hk, ih]

/-!  `dedupFirst` lemmas.  -/

theorem mem_dedupFirst (l : List String) (c : String) : c ∈ dedupFirst l ↔ c ∈ l := by
  induction l with
  | nil => simp [dedupFirst]
  | cons x xs ih =>
      simp only [dedupFirst, List.mem_cons, List.mem_filter, ih]
      constructor
      · rintro (h | ⟨h, _⟩)
        · exact .inl h
        · exact .inr h
      · rintro (h | h)
        · exact .inl h
        · by_cases hx : c = x
          · exact .inl hx
          · exact .inr ⟨h, by simp [bne_iff_ne, hx]⟩

theorem dedupFirst_nodup (l : List String) : (dedupFirst l).Nodup := by
  induction l with
  | nil => simp [dedupFirst]
  | cons x xs ih =>
      simp only [dedupFirst]
      refine List.Nodup.cons ?_ (ih.filter _)
      intro hmem
      rcases List.mem_filter.mp hmem with ⟨_, hbne⟩
      simp [bne_iff_ne] at hbne

theorem dedupFirst_append_single (l : List String) (x : String) :
    dedupFirst (l ++ [x]) = if x ∈ l then dedupFirst l else dedupFirst l ++ [x] := by
  induction l with
  | nil => simp [dedupFirst]
  | cons y ys ih =>
      have hstep : dedupFirst ((y :: ys) ++ [x]) =
          y :: (dedupFirst (ys ++ [x])).filter (fun z => z != y) := rfl
      rw [hstep, ih]
      by_cases hx : x ∈ ys
      · rw [if_pos hx, if_pos (List.mem_cons.mpr (.inr hx))]
        rfl
      · rw [if_neg hx]
        by_cases hxy : x = y
        · rw [if_pos (List.mem_cons.mpr (.inl hxy)), List.filter_append]
          have hone : List.filter (fun z => z != y) [x] = [] := by simp [hxy]
          rw [hone, List.append_nil]
          rfl
        · rw [if_neg (by simp [List.mem_cons, hxy, hx]), List.filter_append]
          have hone : List.filter (fun z => z != y) [x] = [x] := by
            simp [List.filter_cons, bne_iff_ne, hxy]
          rw [hone]
          rfl

/-!  `listMax` lemmas.  -/

theorem listMax_append_single (l : List Int) (x : Int) (h : l ≠ []) :
    listMax (l ++ [x]) = max (listMax l) x := by
  cases l with
  | nil => exact absurd rfl h
  | cons a l => simp [listMax, List.foldl_append]

/-!  Lookup and update over key-indexed maps built by mapping a function
over a key list.  -/

theorem alookup_map_keys {α : Type} (K : List String) (f : String → α) (c : String) :
    alookup (K.map (fun k => (k, f k))) c = if c ∈ K then some (f c) else none := by
  induction K with
  | nil => simp [alookup_nil]
  | cons k K ih =>
      rw [List.map_cons, alookup_cons, ih]
      by_cases hk : k = c
      · subst hk
        simp
      · rw [if_neg hk]
        by_cases hc : c ∈ K
        · rw [if_pos hc, if_pos (List.mem_cons.mpr (.inr hc))]
        · rw [if_neg hc, if_neg ?_]
          rintro h
          rcases List.mem_cons.mp h with h1 | h2
          · exact hk h1.symm
          · exact hc h2

theorem asetFirst_map_keys {α : Type} (K : List String) (f : String → α) (c : String) (v : α)
    (hnd : K.Nodup) :
    asetFirst (K.map (fun k => (k, f k))) c v =
      K.map (fun k => (k, if k = c then v else f k)) := by
  induction K with
  | nil => rfl
  | cons k K ih =>
      rcases List.nodup_cons.mp hnd with ⟨hk, hnd'⟩
      simp only [List.map_cons, asetFirst, beq_iff_eq]
      by_cases hkc : k = c
      · rw [if_pos hkc, if_pos hkc]
        subst hkc
        congr 1
        apply List.map_congr_left
        intro a ha
        rw [if_neg ?_]
        intro h
        exact hk (h ▸ ha)
      · rw [if_neg hkc, if_neg hkc, ih hnd']

/-!  Characterization of the Mode-1 `history_map` loop: the map it builds
is exactly the first-occurrence-deduplicated category list paired with
the per-category maxima from the specification.  -/

theorem m1_history_map_append (l1 l2 : List M1Row) (m : List (String × Int)) :
    m1_history_map (l1 ++ l2) m = m1_history_map l2 (m1_history_map l1 m) := by
  induction l1 generalizing m with
  | nil => rfl
  | cons r l1 ih =>
      rw [List.cons_append]
      cases h : alookup m r.CategoryID with
      | none =>
          simp only [m1_history_map, h]
          exact ih _
      | some old =>
          simp only [m1_history_map, h]
          by_cases hgt : scoreOf r > old
          · rw [if_pos hgt, if_pos hgt]
            exact ih _
          · rw [if_neg hgt, if_neg hgt]
            exact ih _

theorem mem_cats_iff_group_ne_nil (rows : List M1Row) (c : String) :
    c ∈ rows.map (·.CategoryID) ↔ rows.filter (fun r => r.CategoryID == c) ≠ [] := by
  rw [Ne, List.filter_eq_nil_iff]
  push_neg
  constructor
  · intro h
    rcases List.mem_map.mp h with ⟨r, hr, hrc⟩
    exact ⟨r, hr, by simp [hrc]⟩
  · rintro ⟨r, hr, hrc⟩
    exact List.mem_map.mpr ⟨r, hr, by simpa using hrc⟩

theorem groupMax_append_notmem (rows : List M1Row) (r : M1Row) (c : String)
    (hne : r.CategoryID ≠ c) : groupMax (rows ++ [r]) c = groupMax rows c := by
  unfold groupMax
  rw [List.filter_append]
  have : List.filter (fun x => x.CategoryID == c) [r] = [] := by
    simp [List.filter_cons, hne]
  rw [this, List.append_nil]

theorem groupMax_append_mem (rows : List M1Row) (r : M1Row) (c : String)
    (hc : r.CategoryID = c) (hne : rows.filter (fun x => x.CategoryID == c) ≠ []) :
    groupMax (rows ++ [r]) c = max (groupMax rows c) (scoreOf r) := by
  unfold groupMax
  rw [List.filter_append]
  have h1 : List.filter (fun x => x.CategoryID == c) [r] = [r] := by
    simp [List.filter_cons, hc]
  rw [h1, List.map_append, List.map_singleton]
  exact listMax_append_single _ _ (fun h => hne (List.map_eq_nil_iff.mp h))

theorem groupMax_append_new (rows : List M1Row) (r : M1Row) (c : String)
    (hc : r.CategoryID = c) (hnil : rows.filter (fun x => x.CategoryID == c) = []) :
    groupMax (rows ++ [r]) c = scoreOf r := by
  unfold groupMax
  rw [List.filter_append, hnil, List.nil_append]
  simp [List.filter_cons, hc, listMax]

/-- The Mode-1 loop of `fetch_user_history` computes, entry for entry, the
specification's best-score-per-category map. -/
theorem m1_map_spec (rows : List M1Row) : m1_history_map rows [] = specMap rows := by
  induction rows using List.reverseRecOn with
  | nil => rfl
  | append_singleton rows r ih =>
      rw [m1_history_map_append, ih]
      set c0 := r.CategoryID with hc0
      have hlk : alookup (specMap rows) c0 =
          if c0 ∈ dedupFirst (rows.map (·.CategoryID)) then some (groupMax rows c0) else none :=
        alookup_map_keys _ _ _
      by_cases hmem : c0 ∈ rows.map (·.CategoryID)
      · rw [if_pos ((mem_dedupFirst _ _).mpr hmem)] at hlk
        have hgrp := (mem_cats_iff_group_ne_nil rows c0).mp hmem
        show m1_history_map [r] (specMap rows) = specMap (rows ++ [r])
        simp only [m1_history_map, hlk, ← hc0]
        have hspec : specMap (rows ++ [r]) =
            (dedupFirst (rows.map (·.CategoryID))).map (fun c => (c, groupMax (rows ++ [r]) c)) := by
          unfold specMap
          rw [List.map_append, List.map_singleton, dedupFirst_append_single, if_pos hmem]
        by_cases hgt : scoreOf r > groupMax rows c0
        · rw [if_pos hgt, hspec]
          unfold specMap
          rw [asetFirst_map_keys _ _ _ _ (dedupFirst_nodup _)]
          apply List.map_congr_left
          intro c hc
          by_cases hcc : c = c0
          · subst hcc
            rw [if_pos rfl, groupMax_append_mem rows r c0 rfl hgrp]
            simp [max_eq_right (le_of_lt hgt)]
          · rw [if_neg hcc, groupMax_append_notmem rows r c (by simpa [hc0, eq_comm] using hcc)]
        · rw [if_neg hgt, hspec]
          unfold specMap
          apply List.map_congr_left
          intro c hc
          by_cases hcc : c = c0
          · subst hcc
            rw [groupMax_append_mem rows r c0 rfl hgrp]
            simp [max_eq_left (le_of_not_lt hgt)]
          · rw [groupMax_append_notmem rows r c (by simpa [hc0, eq_comm] using hcc)]
      · rw [if_neg (fun h => hmem ((mem_dedupFirst _ _).mp h))] at hlk
        show m1_history_map [r] (specMap rows) = specMap (rows ++ [r])
        simp only [m1_history_map, hlk, ← hc0]
        unfold specMap
        rw [List.map_append, List.map_singleton, dedupFirst_append_single, if_neg hmem,
          List.map_append, List.map_singleton]
        congr 1
        · apply List.map_congr_left
          intro c hc
          have hcc : c0 ≠ c := by
            intro h
            exact hmem (h ▸ (mem_dedupFirst _ _).mp hc)
          rw [groupMax_append_notmem rows r c hcc]
        · rw [groupMax_append_new rows r c0 rfl
            (by by_contra hne
                exact hmem ((mem_cats_iff_group_ne_nil rows c0).mpr hne))]

/-!  Characterization of the Mode-2 loop.  -/

/-- The two tier-pricing conditionals are one and the same function. -/
theorem tier_eq_reconcile_points (n : Int) : tier n = reconcile_points n := rfl

theorem pointsFor_cons_of_ne (r : M2Row) (rs : List M2Row) (c : String)
    (h : r.CharacterID ≠ c) : pointsFor (r :: rs) c = pointsFor rs c := by
  unfold pointsFor
  rw [List.find?_cons_of_neg (p := fun x => x.CharacterID == c) rs (by simp [h])]

theorem pointsFor_cons_self (r : M2Row) (rs : List M2Row) (c : String)
    (h : r.CharacterID = c) : pointsFor (r :: rs) c = tier (attemptsOf r) := by
  unfold pointsFor
  rw [List.find?_cons_of_pos (p := fun x => x.CharacterID == c) rs (by simp [h])]

theorem m2_loop_snd (rows : List M2Row) :
    ∀ seen pts, (m2_loop rows seen pts).2 = pts + m2_spec_aux rows seen := by
  induction rows with
  | nil => intro seen pts; simp [m2_loop, m2_spec_aux, dedupFirst]
  | cons r rs ih =>
      intro seen pts
      set c0 := r.CharacterID with hc0
      have hdedup : dedupFirst ((r :: rs).map (·.CharacterID)) =
          c0 :: (dedupFirst (rs.map (·.CharacterID))).filter (fun z => z != c0) := rfl
      by_cases hmem : c0 ∈ seen
      · have hstep : m2_loop (r :: rs) seen pts = m2_loop rs seen pts := by
          simp [m2_loop, ← hc0, hmem]
        rw [hstep, ih]
        congr 1
        unfold m2_spec_aux
        rw [hdedup, List.filter_cons, if_neg (by simp [hmem]), List.filter_filter]
        rw [show List.filter (fun a => decide (a ∉ seen) && (a != c0))
              (dedupFirst (rs.map (·.CharacterID))) =
            List.filter (fun a => decide (a ∉ seen))
              (dedupFirst (rs.map (·.CharacterID))) from
          List.filter_congr (by
            intro y _
            by_cases hy : y ∈ seen
            · simp [hy]
            · have hyne : y ≠ c0 := fun h => hy (h ▸ hmem)
              simp [hy, hyne])]
        apply congrArg
        apply List.map_congr_left
        intro c hc
        rcases List.mem_filter.mp hc with ⟨_, hcs⟩
        have hcseen : c ∉ seen := of_decide_eq_true hcs
        exact (pointsFor_cons_of_ne r rs c (fun h => hcseen (h ▸ hmem))).symm
      · have hstep : m2_loop (r :: rs) seen pts =
            m2_loop rs (seen ++ [c0]) (pts + reconcile_points (attemptsOf r)) := by
          simp [m2_loop, ← hc0, hmem]
        rw [hstep, ih]
        unfold m2_spec_aux
        rw [hdedup, List.filter_cons, if_pos (by simp [hmem]), List.map_cons, List.sum_cons,
          List.filter_filter]
        rw [pointsFor_cons_self r rs c0 rfl, tier_eq_reconcile_points]
        rw [show List.filter (fun c => decide (c ∉ seen ++ [c0]))
              (dedupFirst (rs.map (·.CharacterID))) =
            List.filter (fun a => decide (a ∉ seen) && (a != c0))
              (dedupFirst (rs.map (·.CharacterID))) from
          List.filter_congr (by
            intro y _
            by_cases hy : y ∈ seen
            · simp [hy, List.mem_append]
            · by_cases hyc : y = c0
              · simp [hyc, List.mem_append]
              · simp [hy, hyc, List.mem_append])]
        rw [show List.map (pointsFor rs)
              (List.filter (fun a => decide (a ∉ seen) && (a != c0))
                (dedupFirst (rs.map (·.CharacterID)))) =
            List.map (pointsFor (r :: rs))
              (List.filter (fun a => decide (a ∉ seen) && (a != c0))
                (dedupFirst (rs.map (·.CharacterID)))) from
          List.map_congr_left (by
            intro c hc
            rcases List.mem_filter.mp hc with ⟨_, hcs⟩
            rw [Bool.and_eq_true] at hcs
            have hcne : r.CharacterID ≠ c := by
              intro h
              have h2 := hcs.2
              have hcc0 : c = c0 := (hc0.trans h).symm
              rw [hcc0] at h2
              simp at h2
            exact (pointsFor_cons_of_ne r rs c hcne).symm)]
        ring

theorem m2_loop_append (l1 l2 : List M2Row) (seen : List String) (pts : Int) :
    m2_loop (l1 ++ l2) seen pts =
      m2_loop l2 (m2_loop l1 seen pts).1 (m2_loop l1 seen pts).2 := by
  induction l1 generalizing seen pts with
  | nil => rfl
  | cons r l1 ih =>
      rw [List.cons_append]
      by_cases h : r.CharacterID ∈ seen
      · simp only [m2_loop, if_pos h]
        exact ih _ _
      · simp only [m2_loop, if_neg h]
        exact ih _ _

theorem m2_loop_skip (rows : List M2Row) (seen : List String) (pts : Int)
    (h : ∀ r ∈ rows, r.CharacterID ∈ seen) : m2_loop rows seen pts = (seen, pts) := by
  induction rows with
  | nil => rfl
  | cons r rs ih =>
      have hr := h r (List.mem_cons_self r rs)
      simp only [m2_loop, if_pos hr]
      exact ih (fun x hx => h x (List.mem_cons_of_mem r hx))

theorem m2_loop_seen_mem (rows : List M2Row) (seen : List String) (pts : Int) :
    (∀ c, c ∈ seen → c ∈ (m2_loop rows seen pts).1) ∧
      (∀ r ∈ rows, r.CharacterID ∈ (m2_loop rows seen pts).1) := by
  induction rows generalizing seen pts with
  | nil => exact ⟨fun c hc => hc, fun r hr => absurd hr (List.not_mem_nil r)⟩
  | cons r rs ih =>
      by_cases h : r.CharacterID ∈ seen
      · simp only [m2_loop, if_pos h]
        refine ⟨(ih _ _).1, ?_⟩
        intro x hx
        rcases List.mem_cons.mp hx with hx | hx
        · exact (ih _ _).1 _ (hx ▸ h)
        · exact (ih _ _).2 x hx
      · simp only [m2_loop, if_neg h]
        refine ⟨?_, ?_⟩
        · intro c hc
          exact (ih _ _).1 c (List.mem_append.mpr (.inl hc))
        · intro x hx
          rcases List.mem_cons.mp hx with hx | hx
          · exact (ih _ _).1 _ (List.mem_append.mpr (.inr (by simp [hx])))
          · exact (ih _ _).2 x hx

/-!  Pre-fill idempotence.  -/

theorem solvedAt_prefillStep_self (m : List (String × MProg)) (c : String) :
    solvedAt (prefillStep m c) c := by
  unfold prefillStep
  cases h : alookup m c with
  | none =>
      refine ⟨⟨0, true⟩, ?_, rfl⟩
      rw [alookup_append_of_none _ _ _ h, alookup_cons, if_pos rfl]
  | some pr =>
      refine ⟨{ pr with solved := true }, ?_, rfl⟩
      rw [alookup_asetFirst _ _ _ _ (by rw [h]; rfl), if_pos rfl]

theorem prefillStep_of_solvedAt (m : List (String × MProg)) (c : String)
    (h : solvedAt m c) : prefillStep m c = m := by
  obtain ⟨pr, hl, hs⟩ := h
  unfold prefillStep
  rw [hl]
  show asetFirst m c { pr with solved := true } = m
  have hpr : { pr with solved := true } = pr := by
    cases pr
    simp_all
  rw [hpr]
  exact asetFirst_of_lookup_self _ _ _ hl

theorem solvedAt_prefillStep (m : List (String × MProg)) (c c' : String)
    (h : solvedAt m c) : solvedAt (prefillStep m c') c := by
  obtain ⟨pr, hl, hs⟩ := h
  unfold prefillStep
  cases h' : alookup m c' with
  | none => exact ⟨pr, alookup_append_of_some _ _ _ _ hl, hs⟩
  | some pr' =>
      show solvedAt (asetFirst m c' { pr' with solved := true }) c
      by_cases hcc : c' = c
      · exact ⟨{ pr' with solved := true },
          by rw [alookup_asetFirst _ _ _ _ (by rw [h']; rfl), if_pos hcc], rfl⟩
      · exact ⟨pr, by rw [alookup_asetFirst _ _ _ _ (by rw [h']; rfl), if_neg hcc]; exact hl, hs⟩

theorem solvedAt_prefill (m : List (String × MProg)) (cs : List String) (c : String)
    (h : solvedAt m c) : solvedAt (prefill m cs) c := by
  induction cs generalizing m with
  | nil => exact h
  | cons c' cs ih => exact ih _ (solvedAt_prefillStep m c c' h)

theorem solvedAt_prefill_of_mem (m : List (String × MProg)) (cs : List String) (c : String)
    (h : c ∈ cs) : solvedAt (prefill m cs) c := by
  induction cs generalizing m with
  | nil => exact absurd h (List.not_mem_nil c)
  | cons c' cs ih =>
      show solvedAt (prefill (prefillStep m c') cs) c
      rcases List.mem_cons.mp h with h1 | h2
      · subst h1
        exact solvedAt_prefill _ _ _ (solvedAt_prefillStep_self _ _)
      · exact ih _ h2

theorem prefill_of_all_solved (m : List (String × MProg)) (cs : List String)
    (h : ∀ c ∈ cs, solvedAt m c) : prefill m cs = m := by
  induction cs generalizing m with
  | nil => rfl
  | cons c cs ih =>
      show prefill (prefillStep m c) cs = m
      rw [prefillStep_of_solvedAt m c (h c (List.mem_cons_self c cs))]
      exact ih m (fun x hx => h x (List.mem_cons_of_mem c hx))

/-- Re-running the pre-fill loop with the same character list changes
nothing: after the first run every listed character is present and marked
solved. -/
theorem prefill_idem (m : List (String × MProg)) (cs : List String) :
    prefill (prefill m cs) cs = prefill m cs :=
  prefill_of_all_solved _ _ (fun c hc => solvedAt_prefill_of_mem m cs c hc)

/-!  Claim theorems.  -/

theorem sumValues_specMap (rows : List M1Row) :
    sumValues (specMap rows) =
      ((dedupFirst (rows.map (·.CategoryID))).map (groupMax rows)).sum := by
  unfold sumValues specMap
  rw [List.map_map]
  rfl

theorem m2_spec_aux_nil_seen (rows : List M2Row) :
    m2_spec_aux rows [] =
      ((dedupFirst (rows.map (·.CharacterID))).map (pointsFor rows)).sum := by
  unfold m2_spec_aux
  congr 1
  apply congrArg
  rw [List.filter_congr (q := fun _ => true) (by intro y _; simp)]
  exact List.filter_true _

/-- C1: the reconciled total score equals the specification formula — the
sum over categories of the maximum persisted score plus, for each
character with at least one solved record, the tier points of the first
solved record's attempts value, counted once per character — and it is a
pure function of the two logs, independent of the session state being
reconciled into. -/
theorem claim_C1 (uid : String) (m1 : List M1Row) (m2 : List M2Row) (st st' : SessionState) :
    (fetch_user_history (some m1) (some m2) uid st).score = spec_total_score uid m1 m2 ∧
      (fetch_user_history (some m1) (some m2) uid st).score =
        (fetch_user_history (some m1) (some m2) uid st').score := by
  constructor
  · show sumValues (m1_history_map (m1.filter (fun r => r.UserEmail == uid)) []) +
        (m2_loop (m2.filter (fun r => r.UserEmail == uid && pyUpper r.IsSolved == "TRUE")) [] 0).2 =
        spec_total_score uid m1 m2
    rw [m1_map_spec, sumValues_specMap, m2_loop_snd, m2_spec_aux_nil_seen]
    have h1 : ((dedupFirst ((m1.filter (fun r => r.UserEmail == uid)).map (·.CategoryID))).map
        (groupMax (m1.filter (fun r => r.UserEmail == uid)))).sum = spec_m1_total uid m1 := rfl
    have h2 : ((dedupFirst ((m2.filter
        (fun r => r.UserEmail == uid && pyUpper r.IsSolved == "TRUE")).map (·.CharacterID))).map
        (pointsFor (m2.filter
          (fun r => r.UserEmail == uid && pyUpper r.IsSolved == "TRUE")))).sum =
        spec_m2_total uid m2 := rfl
    rw [h1, h2]
    unfold spec_total_score
    ring
  · rfl

/-- C2: reconciliation is idempotent — running `fetch_user_history` twice
on the same unchanged logs yields the identical session state (same total
score, same per-category best map, same solved progress) as running it
once. -/
theorem claim_C2 (m1Log : Option (List M1Row)) (m2Log : Option (List M2Row))
    (uid : String) (st : SessionState) :
    fetch_user_history m1Log m2Log uid (fetch_user_history m1Log m2Log uid st) =
      fetch_user_history m1Log m2Log uid st := by
  cases m1Log with
  | none =>
      cases m2Log with
      | none => rfl
      | some l2 =>
          simp only [fetch_user_history]
          rw [prefill_idem]
  | some l1 =>
      cases m2Log with
      | none => rfl
      | some l2 =>
          simp only [fetch_user_history]
          rw [prefill_idem]

/-- C3: for a log whose Mode-2 records all concern one character,
reconciliation prices that character once, by the tier of the first
record of the log with `solved = true` for the user; and appending a
further record for the same character (solved or not, any attempts
value) changes nothing once a solved record exists. -/
theorem claim_C3 (uid c : String) (rows : List M2Row)
    (h : ∀ r ∈ rows, r.CharacterID = c) :
    ((m2_loop (userSolvedM2 uid rows) [] 0).2 =
      match (userSolvedM2 uid rows).head? with
      | some r => tier (attemptsOf r)
      | none => 0) ∧
    ∀ r', r'.CharacterID = c → userSolvedM2 uid rows ≠ [] →
      (m2_loop (userSolvedM2 uid (rows ++ [r'])) [] 0).2 =
        (m2_loop (userSolvedM2 uid rows) [] 0).2 := by
  have hsub : ∀ r ∈ userSolvedM2 uid rows, r.CharacterID = c :=
    fun r hr => h r (List.mem_of_mem_filter hr)
  constructor
  · cases hl : userSolvedM2 uid rows with
    | nil => rfl
    | cons r0 rest =>
        have hr0 : r0.CharacterID = c := hsub r0 (by rw [hl]; exact List.mem_cons_self _ _)
        have hrest : ∀ x ∈ rest, x.CharacterID ∈ ([] : List String) ++ [r0.CharacterID] := by
          intro x hx
          have hxc : x.CharacterID = c :=
            hsub x (by rw [hl]; exact List.mem_cons_of_mem _ hx)
          simp [hxc, hr0]
        have hstep : m2_loop (r0 :: rest) [] 0 =
            m2_loop rest ([] ++ [r0.CharacterID]) (0 + reconcile_points (attemptsOf r0)) := by
          simp [m2_loop]
        rw [hstep, m2_loop_skip _ _ _ hrest]
        simp [tier_eq_reconcile_points]
  · intro r' hc' hne
    have hfl : userSolvedM2 uid (rows ++ [r']) =
        userSolvedM2 uid rows ++ userSolvedM2 uid [r'] := List.filter_append _ _
    cases hone : userSolvedM2 uid [r'] with
    | nil => rw [hfl, hone, List.append_nil]
    | cons q qs =>
        have hq : q = r' ∧ qs = [] := by
          have : userSolvedM2 uid [r'] = [r'] ∨ userSolvedM2 uid [r'] = [] := by
            unfold userSolvedM2
            rw [List.filter_cons]
            by_cases hp : (r'.UserEmail == uid && pyUpper r'.IsSolved == "TRUE") = true
            · simp [hp]
            · simp [hp]
          rcases this with h1 | h1 <;> rw [hone] at h1
          · exact ⟨(List.cons.injEq _ _ _ _ ▸ h1).1, (List.cons.injEq _ _ _ _ ▸ h1).2⟩
          · simp at h1
        obtain ⟨hq1, hq2⟩ := hq
        subst hq1
        subst hq2
        rw [hfl, hone, m2_loop_append]
        have hqmem : q.CharacterID ∈ (m2_loop (userSolvedM2 uid rows) [] 0).1 := by
          cases hl : userSolvedM2 uid rows with
          | nil => exact absurd hl hne
          | cons r0 rest =>
              have hr0 : r0.CharacterID = c := hsub r0 (by rw [hl]; exact List.mem_cons_self _ _)
              have := (m2_loop_seen_mem (r0 :: rest) [] 0).2 r0 (List.mem_cons_self _ _)
              rw [hr0] at this
              rw [hc']
              exact this
        have hskip := m2_loop_skip [q] (m2_loop (userSolvedM2 uid rows) [] 0).1
          (m2_loop (userSolvedM2 uid rows) [] 0).2
          (by intro x hx; rcases List.mem_singleton.mp hx with rfl; exact hqmem)
        rw [hskip]

/-- C4: a value present in the reconciled best-score map is exactly the
specification's maximum persisted score for that user and category, and
appending any further record to the log never decreases it. -/
theorem claim_C4 (uid c : String) (rows : List M1Row) (v : Int)
    (h : alookup (m1_history_map (userM1 uid rows) []) c = some v) :
    v = spec_best uid rows c ∧
    ∀ r, ∃ v', alookup (m1_history_map (userM1 uid (rows ++ [r])) []) c = some v' ∧ v ≤ v' := by
  rw [m1_map_spec] at h
  unfold specMap at h
  rw [alookup_map_keys] at h
  by_cases hmem : c ∈ dedupFirst ((userM1 uid rows).map (·.CategoryID))
  · rw [if_pos hmem] at h
    injection h with h
    have hmem' : c ∈ (userM1 uid rows).map (·.CategoryID) := (mem_dedupFirst _ _).mp hmem
    constructor
    · exact h.symm
    · intro r
      have hfl : userM1 uid (rows ++ [r]) = userM1 uid rows ++ userM1 uid [r] :=
        List.filter_append _ _
      cases hone : userM1 uid [r] with
      | nil =>
          refine ⟨v, ?_, le_refl v⟩
          rw [hfl, hone, List.append_nil, m1_map_spec]
          unfold specMap
          rw [alookup_map_keys, if_pos hmem, h]
      | cons q qs =>
          have hq : q = r ∧ qs = [] := by
            have : userM1 uid [r] = [r] ∨ userM1 uid [r] = [] := by
              unfold userM1
              rw [List.filter_cons]
              by_cases hp : (r.UserEmail == uid) = true
              · simp [hp]
              · simp [hp]
            rcases this with h1 | h1 <;> rw [hone] at h1
            · exact ⟨(List.cons.injEq _ _ _ _ ▸ h1).1, (List.cons.injEq _ _ _ _ ▸ h1).2⟩
            · simp at h1
          obtain ⟨hq1, hq2⟩ := hq
          subst hq1
          subst hq2
          rw [hfl, hone, m1_map_spec]
          unfold specMap
          rw [alookup_map_keys]
          have hmemnew : c ∈ dedupFirst ((userM1 uid rows ++ [q]).map (·.CategoryID)) := by
            rw [mem_dedupFirst, List.map_append]
            exact List.mem_append.mpr (.inl hmem')
          rw [if_pos hmemnew]
          refine ⟨groupMax (userM1 uid rows ++ [q]) c, rfl, ?_⟩
          rw [← h]
          by_cases hqc : q.CategoryID = c
          · rw [groupMax_append_mem _ _ _ hqc
              ((mem_cats_iff_group_ne_nil _ _).mp hmem')]
            exact le_max_left _ _
          · rw [groupMax_append_notmem _ _ _ hqc]
  · rw [if_neg hmem] at h
    exact absurd h (by simp)

/-- C5 counterexample: with an unsolved character at 0 attempts, a wrong
guess is saved with `attemptsAtGuessTime = 1`, not the pre-increment
value 0 — the claim that every record carries the pre-increment attempts
value is false. -/
theorem claim_C5_cex :
    (mode2_guess_step "char1" "Moses" ⟨0, false⟩ "aaron").saved.attempts ≠ 0 := by
  decide

/-- C5 (amended): a correct guess is saved with the pre-guess attempts
value; a wrong guess is saved with the post-increment value
`attempts + 1`, because the increment of the session dict happens before
the save and `state` aliases that dict. -/
theorem claim_C5 (c_id character_name : String) (state : MProg) (guess : String) :
    (mode2_guess_step c_id character_name state guess).saved.attempts =
      (if (mode2_guess_step c_id character_name state guess).correct then state.attempts
       else state.attempts + 1) ∧
    (mode2_guess_step c_id character_name state guess).saved.solved =
      (mode2_guess_step c_id character_name state guess).correct := by
  unfold mode2_guess_step
  by_cases h : pyLower (pyStrip guess) = pyLower (pyStrip character_name) <;> simp [h]

/-- C6 counterexample: at an unsolved state with 2 attempts, a wrong
guess moves the counter to 3, not `min (2+1) 2 = 2` — the attempts
counter does not saturate at 2. -/
theorem claim_C6_cex :
    (mode2_guess_step "char1" "Moses" ⟨2, false⟩ "aaron").progress.attempts ≠ min (2 + 1) 2 := by
  decide

/-- C6 (amended): on an unsolved state, a mismatching guess yields the
Wrong outcome and the new state is `UNSOLVED(attempts + 1)` — the counter
increments without saturation. -/
theorem claim_C6 (c_id character_name : String) (state : MProg) (guess : String)
    (hsolved : state.solved = false)
    (h : pyLower (pyStrip guess) ≠ pyLower (pyStrip character_name)) :
    (mode2_guess_step c_id character_name state guess).correct = false ∧
    (mode2_guess_step c_id character_name state guess).progress.attempts =
      state.attempts + 1 ∧
    (mode2_guess_step c_id character_name state guess).progress.solved = false := by
  unfold mode2_guess_step
  simp [h, hsolved]

theorem claim_C6_witness :
    (mode2_guess_step "char1" "Moses" ⟨0, false⟩ "aaron").correct = false ∧
    (mode2_guess_step "char1" "Moses" ⟨0, false⟩ "aaron").progress.attempts = 0 + 1 ∧
    (mode2_guess_step "char1" "Moses" ⟨0, false⟩ "aaron").progress.solved = false :=
  claim_C6 "char1" "Moses" ⟨0, false⟩ "aaron" rfl (by decide)

/-- C8: a non-numeric Mode-1 score is coerced to 0, a non-numeric Mode-2
attempts value is priced at the lowest tier (1 point), and a log whose
only record has an unparseable score reconciles to a total of 0 rather
than raising. -/
theorem claim_C8 (r1 : M1Row) (r2 : M2Row) (st : SessionState)
    (h1 : pyInt r1.Score = none) (h2 : pyInt r2.CurrentAttempts = none) :
    scoreOf r1 = 0 ∧ reconcile_points (attemptsOf r2) = 1 ∧
    (fetch_user_history (some [r1]) (some []) r1.UserEmail st).score = 0 := by
  have hs : scoreOf r1 = 0 := by unfold scoreOf; rw [h1]; rfl
  refine ⟨hs, ?_, ?_⟩
  · unfold attemptsOf
    rw [h2]
    rfl
  · have hfl : [r1].filter (fun r => r.UserEmail == r1.UserEmail) = [r1] := by simp
    show sumValues (m1_history_map ([r1].filter (fun r => r.UserEmail == r1.UserEmail)) []) +
        (m2_loop [] [] 0).2 = 0
    rw [hfl]
    show sumValues ([] ++ [(r1.CategoryID, scoreOf r1)]) + 0 = 0
    rw [hs]
    rfl

theorem claim_C8_witness :
    scoreOf ⟨"u_1", "cat1", CellVal.str "abc"⟩ = 0 ∧
    reconcile_points (attemptsOf ⟨"u_1", "ch1", "TRUE", CellVal.str "xyz"⟩) = 1 ∧
    (fetch_user_history (some [⟨"u_1", "cat1", CellVal.str "abc"⟩]) (some [])
      (M1Row.mk "u_1" "cat1" (CellVal.str "abc")).UserEmail ⟨0, [], []⟩).score = 0 :=
  claim_C8 ⟨"u_1", "cat1", CellVal.str "abc"⟩ ⟨"u_1", "ch1", "TRUE", CellVal.str "xyz"⟩
    ⟨0, [], []⟩ (by decide) (by decide)

/-- C9: the live pricing of `mode2_play` (`points_map.get(attempts, 1)`)
and the reconciliation pricing of `fetch_user_history` are the same
function, and both equal the spec's tier mapping
`tier(0)=3, tier(1)=2, tier(n≥2)=1`. -/
theorem claim_C9 :
    (∀ a : Int, live_points a = reconcile_points a) ∧
    (∀ a : Int, reconcile_points a = tier a) ∧
    tier 0 = 3 ∧ tier 1 = 2 ∧ (∀ n : Int, 2 ≤ n → tier n = 1) := by
  refine ⟨?_, fun a => rfl, rfl, rfl, ?_⟩
  · intro a
    unfold live_points dictGet points_map reconcile_points
    by_cases h0 : a = 0
    · subst h0
      rfl
    · by_cases h1 : a = 1
      · subst h1
        rfl
      · rw [if_neg h0, if_neg h1]
        rw [List.find?_cons_of_neg _ (by simpa using fun h => h0 h.symm),
          List.find?_cons_of_neg _ (by simpa using fun h => h1 h.symm)]
        rfl
  · intro n hn
    unfold tier
    rw [if_neg (by omega), if_neg (by omega)]

theorem claim_C9_witness : tier 5 = 1 := claim_C9.2.2.2.2 5 (by norm_num)

/-- C10: a failed worksheet query is swallowed: the score is still set,
computed from whichever log was read (0 when both queries fail); a failed
Mode-1 query leaves the previous in-memory best map in place, and a
failed Mode-2 query leaves the previous progress map in place. -/
theorem claim_C10 (uid : String) (st : SessionState) (l1 : List M1Row) (l2 : List M2Row) :
    (fetch_user_history none (some l2) uid st).score =
      (fetch_user_history (some []) (some l2) uid st).score ∧
    (fetch_user_history none (some l2) uid st).history_mode1 = st.history_mode1 ∧
    (fetch_user_history (some l1) none uid st).score =
      sumValues (m1_history_map (l1.filter (fun r => r.UserEmail == uid)) []) ∧
    (fetch_user_history (some l1) none uid st).m2_progress = st.m2_progress ∧
    (fetch_user_history none none uid st).score = 0 :=
  ⟨rfl, rfl, Int.add_zero _, rfl, rfl⟩

/-!  Mode-1 submission invariants (C7).  -/

theorem mode1_step_preserves (valid : List String) (answers : List String) (i : String)
    (h1 : ∀ a ∈ answers, pyLower a ∈ valid)
    (h2 : (answers.map pyLower).Nodup) :
    (∀ a ∈ (mode1_submit valid answers i).2, pyLower a ∈ valid) ∧
      (((mode1_submit valid answers i).2).map pyLower).Nodup := by
  by_cases hv : pyLower (pyStrip i) ∈ valid
  · by_cases hd : pyLower (pyStrip i) ∈ answers.map pyLower
    · have hstep : (mode1_submit valid answers i).2 = answers := by
        simp [mode1_submit, hv, hd]
      rw [hstep]
      exact ⟨h1, h2⟩
    · have hstep : (mode1_submit valid answers i).2 = answers ++ [pyTitle (pyStrip i)] := by
        simp [mode1_submit, hv, hd]
      rw [hstep]
      constructor
      · intro a ha
        rcases List.mem_append.mp ha with ha | ha
        · exact h1 a ha
        · rcases List.mem_singleton.mp ha with rfl
          rw [pyLower_pyTitle]
          exact hv
      · rw [List.map_append, List.map_singleton, pyLower_pyTitle, List.nodup_append]
        refine ⟨h2, List.nodup_singleton _, ?_⟩
        intro x hx hx1
        rcases List.mem_singleton.mp hx1 with rfl
        exact hd hx
  · have hstep : (mode1_submit valid answers i).2 = answers := by
      simp [mode1_submit, hv]
    rw [hstep]
    exact ⟨h1, h2⟩

theorem mode1_fold_invariant (valid : List String) (inputs : List String) :
    ∀ answers, (∀ a ∈ answers, pyLower a ∈ valid) → ((answers.map pyLower).Nodup) →
      (∀ a ∈ mode1_fold valid answers inputs, pyLower a ∈ valid) ∧
        ((mode1_fold valid answers inputs).map pyLower).Nodup := by
  induction inputs with
  | nil => exact fun answers ha hn => ⟨ha, hn⟩
  | cons i is ih =>
      intro answers ha hn
      show (∀ a ∈ mode1_fold valid (mode1_submit valid answers i).2 is, pyLower a ∈ valid) ∧ _
      obtain ⟨ha', hn'⟩ := mode1_step_preserves valid answers i ha hn
      exact ih _ ha' hn'

theorem mode1_fold_length (valid : List String) (inputs : List String) :
    ∀ answers, (mode1_fold valid answers inputs).length =
      answers.length +
        ((dedupFirst ((inputs.map (fun i => pyLower (pyStrip i))).filter
            (fun n => decide (n ∈ valid)))).filter
          (fun n => decide (n ∉ answers.map pyLower))).length := by
  induction inputs with
  | nil => intro answers; simp [mode1_fold, dedupFirst]
  | cons i is ih =>
      intro answers
      set n := pyLower (pyStrip i) with hn
      show (mode1_fold valid (mode1_submit valid answers i).2 is).length = _
      rw [List.map_cons, List.filter_cons]
      by_cases hv : n ∈ valid
      · rw [if_pos (by simpa using hv)]
        have hdedup : dedupFirst (n :: (is.map (fun j => pyLower (pyStrip j))).filter
              (fun m => decide (m ∈ valid))) =
            n :: (dedupFirst ((is.map (fun j => pyLower (pyStrip j))).filter
              (fun m => decide (m ∈ valid)))).filter (fun z => z != n) := rfl
        rw [hdedup, List.filter_cons]
        by_cases hd : n ∈ answers.map pyLower
        · rw [if_neg (by simpa using hd)]
          have hstep : (mode1_submit valid answers i).2 = answers := by
            simp [mode1_submit, ← hn, hv, hd]
          rw [hstep, ih answers, List.filter_filter]
          congr 2
          apply List.filter_congr
          intro y _
          by_cases hy : y ∈ answers.map pyLower
          · simp [hy]
          · have hyn : y ≠ n := fun h => hy (h ▸ hd)
            simp [hy, hyn]
        · rw [if_pos (by simpa using hd)]
          have hstep : (mode1_submit valid answers i).2 = answers ++ [pyTitle (pyStrip i)] := by
            simp [mode1_submit, ← hn, hv, hd]
          rw [hstep, ih (answers ++ [pyTitle (pyStrip i)])]
          rw [List.length_append, List.length_cons, List.map_append, List.map_singleton,
            pyLower_pyTitle, ← hn, List.filter_filter]
          rw [show List.filter (fun m => decide (m ∉ answers.map pyLower ++ [n]))
                (dedupFirst ((is.map (fun j => pyLower (pyStrip j))).filter
                  (fun m => decide (m ∈ valid)))) =
              List.filter (fun a => decide (a ∉ answers.map pyLower) && (a != n))
                (dedupFirst ((is.map (fun j => pyLower (pyStrip j))).filter
                  (fun m => decide (m ∈ valid)))) from
            List.filter_congr (by
              intro y _
              by_cases hy : y ∈ answers.map pyLower
              · simp [hy, List.mem_append]
              · by_cases hyn : y = n
                · simp [hyn, List.mem_append]
                · simp [hy, hyn, List.mem_append])]
          simp only [List.length_cons, List.length_nil]
          omega
      · rw [if_neg (by simpa using hv)]
        have hstep : (mode1_submit valid answers i).2 = answers := by
          simp [mode1_submit, ← hn, hv]
        rw [hstep]
        exact ih answers

/-- C7: starting from an empty accepted list, the accepted list never
contains two case-insensitive duplicates, its length equals the number of
distinct normalized correct entries among the submitted answers, and
resubmitting an already-accepted answer yields the Duplicate outcome with
the list unchanged. -/
theorem claim_C7 (valid_answers inputs : List String) :
    ((mode1_fold valid_answers [] inputs).map pyLower).Nodup ∧
    (mode1_fold valid_answers [] inputs).length =
      (dedupFirst ((inputs.map (fun i => pyLower (pyStrip i))).filter
        (fun n => decide (n ∈ valid_answers)))).length ∧
    ∀ i, pyLower (pyStrip i) ∈ (mode1_fold valid_answers [] inputs).map pyLower →
      mode1_submit valid_answers (mode1_fold valid_answers [] inputs) i =
        (M1Outcome.duplicate, mode1_fold valid_answers [] inputs) := by
  have hinv := mode1_fold_invariant valid_answers inputs []
    (by intro a ha; exact absurd ha (List.not_mem_nil a)) (by simp)
  refine ⟨hinv.2, ?_, ?_⟩
  · have hlen := mode1_fold_length valid_answers inputs []
    rw [hlen]
    rw [show List.filter (fun m => decide (m ∉ ([] : List String).map pyLower))
          (dedupFirst ((inputs.map (fun i => pyLower (pyStrip i))).filter
            (fun n => decide (n ∈ valid_answers)))) =
        dedupFirst ((inputs.map (fun i => pyLower (pyStrip i))).filter
          (fun n => decide (n ∈ valid_answers))) from by
      rw [List.filter_congr (q := fun _ => true) (by intro y _; simp)]
      exact List.filter_true _]
    simp
  · intro i hmem
    have hval : pyLower (pyStrip i) ∈ valid_answers := by
      rcases List.mem_map.mp hmem with ⟨a, ha, hla⟩
      have hva := hinv.1 a ha
      rw [hla] at hva
      exact hva
    show (if pyLower (pyStrip i) ∈ valid_answers then _ else _) = _
    rw [if_pos hval, if_pos hmem]

theorem claim_C7_witness :
    mode1_submit ["peter", "andrew", "james"]
        (mode1_fold ["peter", "andrew", "james"] [] ["Peter", "andrew", "Peter"]) "Peter" =
      (M1Outcome.duplicate,
        mode1_fold ["peter", "andrew", "james"] [] ["Peter", "andrew", "Peter"]) :=
  (claim_C7 ["peter", "andrew", "james"] ["Peter", "andrew", "Peter"]).2.2 "Peter" (by decide)

theorem claim_C3_witness :
    ((m2_loop (userSolvedM2 "u_1"
        [⟨"u_1", "ch", "TRUE", CellVal.int 1⟩, ⟨"u_1", "ch", "TRUE", CellVal.int 0⟩]) [] 0).2 =
      match (userSolvedM2 "u_1"
        [⟨"u_1", "ch", "TRUE", CellVal.int 1⟩, ⟨"u_1", "ch", "TRUE", CellVal.int 0⟩]).head? with
      | some r => tier (attemptsOf r)
      | none => 0) ∧
    (m2_loop (userSolvedM2 "u_1"
        ([⟨"u_1", "ch", "TRUE", CellVal.int 1⟩, ⟨"u_1", "ch", "TRUE", CellVal.int 0⟩] ++
          [⟨"u_1", "ch", "TRUE", CellVal.int 0⟩])) [] 0).2 =
      (m2_loop (userSolvedM2 "u_1"
        [⟨"u_1", "ch", "TRUE", CellVal.int 1⟩, ⟨"u_1", "ch", "TRUE", CellVal.int 0⟩]) [] 0).2 :=
  ⟨(claim_C3 "u_1" "ch" _ (by decide)).1,
   (claim_C3 "u_1" "ch" _ (by decide)).2 ⟨"u_1", "ch", "TRUE", CellVal.int 0⟩
     (by decide) (by decide)⟩

theorem claim_C4_witness :
    ((3 : Int) = spec_best "u_1" [⟨"u_1", "cat1", CellVal.int 3⟩] "cat1") ∧
    ∃ v', alookup (m1_history_map (userM1 "u_1"
        ([⟨"u_1", "cat1", CellVal.int 3⟩] ++ [⟨"u_1", "cat1", CellVal.int 5⟩])) []) "cat1" =
      some v' ∧ (3 : Int) ≤ v' :=
  ⟨(claim_C4 "u_1" "cat1" [⟨"u_1", "cat1", CellVal.int 3⟩] 3 (by decide)).1,
   (claim_C4 "u_1" "cat1" [⟨"u_1", "cat1", CellVal.int 3⟩] 3 (by decide)).2
     ⟨"u_1", "cat1", CellVal.int 5⟩⟩

end BibleQuiz
